import Mathlib

/-!
Verification of the concurrent keyword-search engine in `src/search.py`.

The file system is modelled as a function `FS : String → Option String`
mapping a file path to its full textual content, or `none` when opening,
reading or decoding the file raises (the `except` branches of
`search_keywords_in_files`).

Python dictionaries built by `defaultdict(list)` are modelled as
insertion-ordered association lists `List (String × List String)`:
`dictExtend d k v` models `d[k].extend(v)` (and `d[k].append(x)` via
`v = [x]`), which appends to the existing entry when the key is present
and otherwise creates a new entry at the end, exactly as `defaultdict`
does.
-/

abbrev FS := String → Option String

abbrev Dict := List (String × List String)

/-- Here `dictExtend d k v` models `d[k].extend(v)` on a `defaultdict(list)`:
append `v` to the first entry whose key is `k`, or create the entry `(k, v)`
at the end when `k` is absent. -/
def dictExtend : Dict → String → List String → Dict
  | [], k, v => [(k, v)]
  | (k', vs) :: rest, k, v =>
    if k' = k then (k', vs ++ v) :: rest else (k', vs) :: dictExtend rest k v

/-- Here `dictLookup d k` models `d[k]` read on a `defaultdict(list)`: the value
of the first entry whose key is `k`, or `[]` when the key is absent. -/
def dictLookup : Dict → String → List String
  | [], _ => []
  | (k', vs) :: rest, k => if k' = k then vs else dictLookup rest k

/-- The keys of a dictionary, in insertion order (Python `d.keys()`). -/
def dictKeys (d : Dict) : List String := d.map Prod.fst

/-- Predicate `listStartsWith s pat` holds when `pat` is an initial segment of `s`. -/
def listStartsWith : List Char → List Char → Bool
  | _, [] => true
  | [], _ :: _ => false
  | a :: as, b :: bs => a == b && listStartsWith as bs

/-- Predicate `hasSubstr s pat` models Python `pat in s` on strings: exact,
case-sensitive substring containment of `pat` in `s`. -/
def hasSubstr : List Char → List Char → Bool
  | [], pat => pat.isEmpty
  | s@(_ :: rest), pat => listStartsWith s pat || hasSubstr rest pat

/-- Predicate `occursB kw content` models the test `keyword in content` at line 42 of
`src/search.py`. -/
def occursB (kw content : String) : Bool := hasSubstr content.data kw.data

/-- A file matches a keyword when it is readable and its content contains
the keyword as a substring. -/
def matchesB (fs : FS) (kw f : String) : Bool :=
  match fs f with
  | some content => occursB kw content
  | none => false

/-- The body of the `for file_path in files` loop of
`search_keywords_in_files` (lines 37–47): read the file and, on success,
append it to each matching keyword's list; on failure leave the local
results unchanged (the `except` branches only print a diagnostic). -/
def scanFile (fs : FS) (keywords : List String) (acc : Dict) (file_path : String) : Dict :=
  match fs file_path with
  | some content =>
    keywords.foldl
      (fun d keyword =>
        if occursB keyword content then dictExtend d keyword [file_path] else d)
      acc
  | none => acc

/-- Function `search_keywords_in_files(files, keywords)` (lines 29–57): fold the
per-file scan over the files, starting from the empty
`defaultdict(list)`. -/
def searchKeywordsInFiles (fs : FS) (files keywords : List String) : Dict :=
  files.foldl (scanFile fs keywords) []

/-- The files for which the `except` branches of
`search_keywords_in_files` print a diagnostic: exactly the unreadable
files of the partition, in partition order. -/
def searchDiagnostics (fs : FS) (files : List String) : List String :=
  files.filter (fun f => (fs f).isNone)

/-- The body of the `for res in results_list` loop of `merge_results`
(lines 62–64): iterate the entries of one partial result in insertion
order and extend the accumulated entry (`final_dict[key].extend(paths)`). -/
def mergeOne (final_dict : Dict) (res : Dict) : Dict :=
  res.foldl (fun d p => dictExtend d p.1 p.2) final_dict

/-- Function `merge_results(results_list)` (lines 59–65): left-fold of `mergeOne`
over the partial results, starting from the empty `defaultdict(list)`. -/
def merge_results (results_list : List Dict) : Dict :=
  results_list.foldl mergeOne []

/-- The Python slice `lst[i::n]` for `0 ≤ i < n`: the elements of `lst` whose index is
congruent to `i` modulo `n`, in order. -/
def sliceStep {α : Type} (lst : List α) (i n : Nat) : List α :=
  (lst.enum.filter (fun p => p.1 % n == i)).map Prod.snd

/-- Function `chunkify(lst, n)` (lines 67–69): `[lst[i::n] for i in range(n)]`. -/
def chunkify {α : Type} (lst : List α) (n : Nat) : List (List α) :=
  (List.range n).map (fun i => sliceStep lst i n)

/-- The partial results of the spawned workers, in spawn order: one scan
per non-empty chunk (the `if not file_chunks[i]: continue` guard at lines
87 and 117 skips empty chunks). -/
def spawnedResults (fs : FS) (files keywords : List String) (n : Nat) : List Dict :=
  ((chunkify files n).filter (fun c => !c.isEmpty)).map
    (fun chunk => searchKeywordsInFiles fs chunk keywords)

/-- Function `run_threading(files, keywords, num_threads)` (lines 73–100): chunkify,
scan each non-empty chunk in its own thread, merge the collected partial
results. Partial results are merged in spawn order (thread completion
order only permutes them; content equality at multiset level is proved
separately). -/
def run_threading (fs : FS) (files keywords : List String) (num_threads : Nat) : Dict :=
  merge_results (spawnedResults fs files keywords num_threads)

/-- Function `run_multiprocessing(files, keywords, num_processes)` (lines 108–135):
chunkify, scan each non-empty chunk in its own process, drain exactly one
queue message per spawned process, merge. Queue arrival order is modelled
in spawn order here; arbitrary arrival orders are treated by the
permutation theorems below. -/
def run_multiprocessing (fs : FS) (files keywords : List String) (num_processes : Nat) : Dict :=
  merge_results (spawnedResults fs files keywords num_processes)

/-- The (keyword, file) pairs listed by a result dictionary, in dictionary
order. -/
def dictPairs (d : Dict) : List (String × String) :=
  (d.map (fun p => p.2.map (fun f => (p.1, f)))).flatten

/-- The true matches of a run: for each keyword in order, the files whose
content contains it, tagged with the keyword. -/
def truePairs (fs : FS) (files keywords : List String) : List (String × String) :=
  dictPairs (keywords.map (fun kw => (kw, files.filter (matchesB fs kw))))

/-- The concrete three-file scenario of the spec (§8). -/
def fs0 : FS := fun f =>
  if f = "f1.txt" then some "apple pie"
  else if f = "f2.txt" then some "banana split"
  else if f = "f3.txt" then some "apple banana"
  else none

def files0 : List String := ["f1.txt", "f2.txt", "f3.txt"]

def kws0 : List String := ["apple", "banana", "kiwi"]

example : chunkify [10, 20, 30, 40, 50] 2 = [[10, 30, 50], [20, 40]] := by decide

example : dictLookup (searchKeywordsInFiles fs0 files0 kws0) "apple" = ["f1.txt", "f3.txt"] := by
  decide

example : run_threading fs0 files0 kws0 2
    = [("apple", ["f1.txt", "f3.txt"]), ("banana", ["f3.txt", "f2.txt"])] := by decide

/-! ### Dictionary lemmas -/

theorem dictLookup_extend_self (d : Dict) (k : String) (v : List String) :
    dictLookup (dictExtend d k v) k = dictLookup d k ++ v := by
  induction d with
  | nil => simp [dictExtend, dictLookup]
  | cons p rest ih =>
    obtain ⟨k', vs⟩ := p
    by_cases h : k' = k
    · simp [dictExtend, dictLookup, h]
    · simp [dictExtend, dictLookup, h, ih]

theorem dictLookup_extend_ne (d : Dict) (k k'' : String) (v : List String)
    (h : k'' ≠ k) : dictLookup (dictExtend d k v) k'' = dictLookup d k'' := by
  have h' : ¬k = k'' := fun e => h e.symm
  induction d with
  | nil => simp [dictExtend, dictLookup, h']
  | cons p rest ih =>
    obtain ⟨k', vs⟩ := p
    by_cases h1 : k' = k
    · subst h1
      simp [dictExtend, dictLookup, h']
    · by_cases h2 : k' = k''
      · subst h2
        simp [dictExtend, dictLookup, h1, h', h.symm]
      · simp [dictExtend, dictLookup, h1, h2, ih]

theorem mem_dictKeys_extend (d : Dict) (k k'' : String) (v : List String) :
    k'' ∈ dictKeys (dictExtend d k v) ↔ k'' ∈ dictKeys d ∨ k'' = k := by
  induction d with
  | nil => simp [dictExtend, dictKeys]
  | cons p rest ih =>
    obtain ⟨k', vs⟩ := p
    by_cases h1 : k' = k
    · subst h1
      by_cases h2 : k'' = k' <;> simp [dictExtend, dictKeys, h2]
    · simp only [dictExtend, if_neg h1, dictKeys, List.map_cons, List.mem_cons]
      rw [show (dictExtend rest k v).map Prod.fst = dictKeys (dictExtend rest k v) from rfl,
        ih]
      tauto

theorem dictKeys_extend (d : Dict) (k : String) (v : List String) :
    dictKeys (dictExtend d k v)
      = if k ∈ dictKeys d then dictKeys d else dictKeys d ++ [k] := by
  induction d with
  | nil => simp [dictExtend, dictKeys]
  | cons p rest ih =>
    obtain ⟨k', vs⟩ := p
    by_cases h1 : k' = k
    · simp [dictExtend, dictKeys, h1]
    · have hne : ¬k = k' := fun e => h1 e.symm
      simp only [dictExtend, if_neg h1, dictKeys, List.map_cons, List.mem_cons]
      rw [show (dictExtend rest k v).map Prod.fst = dictKeys (dictExtend rest k v) from rfl,
        ih]
      by_cases h2 : k ∈ dictKeys rest <;>
        simp only [dictKeys] at h2 <;> simp [dictKeys, h2, hne]

theorem dictKeys_nodup_extend (d : Dict) (k : String) (v : List String)
    (h : (dictKeys d).Nodup) : (dictKeys (dictExtend d k v)).Nodup := by
  rw [dictKeys_extend]
  by_cases h2 : k ∈ dictKeys d
  · simpa [h2] using h
  · simp only [if_neg h2]
    exact List.Nodup.append h (List.nodup_singleton k)
      (by simpa [List.disjoint_singleton] using h2)

theorem dictLookup_eq_nil_of_not_mem (d : Dict) (k : String)
    (h : k ∉ dictKeys d) : dictLookup d k = [] := by
  induction d with
  | nil => rfl
  | cons p rest ih =>
    obtain ⟨k', vs⟩ := p
    simp only [dictKeys, List.map_cons, List.mem_cons] at h
    push_neg at h
    simp only [dictLookup, if_neg (fun e : k' = k => h.1 e.symm)]
    exact ih (by simpa [dictKeys] using h.2)

theorem mem_dictKeys_iff_lookup (d : Dict) (k : String)
    (hv : ∀ p ∈ d, p.2 ≠ []) : k ∈ dictKeys d ↔ dictLookup d k ≠ [] := by
  induction d with
  | nil => simp [dictKeys, dictLookup]
  | cons p rest ih =>
    obtain ⟨k', vs⟩ := p
    by_cases h1 : k' = k
    · subst h1
      have : vs ≠ [] := hv (k', vs) (List.mem_cons_self _ _)
      simp [dictKeys, dictLookup, this]
    · simp only [dictKeys, List.map_cons, List.mem_cons, dictLookup, if_neg h1]
      rw [show rest.map Prod.fst = dictKeys rest from rfl]
      have := ih (fun p hp => hv p (List.mem_cons_of_mem _ hp))
      constructor
      · rintro (h | h)
        · exact absurd h.symm h1
        · exact this.mp h
      · intro h
        exact Or.inr (this.mpr h)

theorem dictVals_ne_nil_extend (d : Dict) (k : String) (v : List String)
    (hd : ∀ p ∈ d, p.2 ≠ []) (hv : v ≠ []) :
    ∀ p ∈ dictExtend d k v, p.2 ≠ [] := by
  induction d with
  | nil => simpa [dictExtend] using hv
  | cons q rest ih =>
    obtain ⟨k', vs⟩ := q
    by_cases h1 : k' = k
    · simp only [dictExtend, if_pos h1]
      rintro p hp
      rcases List.mem_cons.mp hp with h | h
      · subst h
        simp [hv]
      · exact hd p (List.mem_cons_of_mem _ h)
    · simp only [dictExtend, if_neg h1]
      rintro p hp
      rcases List.mem_cons.mp hp with h | h
      · subst h
        exact hd (k', vs) (List.mem_cons_self _ _)
      · exact ih (fun q hq => hd q (List.mem_cons_of_mem _ hq)) p h

/-! ### Scanner lemmas -/

theorem kwfold_lookup_not_mem (content f : String) (kws : List String) (acc : Dict)
    (k : String) (hk : k ∉ kws) :
    dictLookup
      (kws.foldl
        (fun d kw => if occursB kw content then dictExtend d kw [f] else d) acc) k
      = dictLookup acc k := by
  induction kws generalizing acc with
  | nil => rfl
  | cons kw rest ih =>
    have hk1 : k ≠ kw := fun e => hk (e ▸ List.mem_cons_self _ _)
    have hk2 : k ∉ rest := fun e => hk (List.mem_cons_of_mem _ e)
    simp only [List.foldl_cons]
    rw [ih _ hk2]
    by_cases h : occursB kw content
    · rw [if_pos h, dictLookup_extend_ne _ _ _ _ hk1]
    · rw [if_neg h]

theorem kwfold_lookup_mem (content f : String) (kws : List String) (acc : Dict)
    (k : String) (hnd : kws.Nodup) (hk : k ∈ kws) :
    dictLookup
      (kws.foldl
        (fun d kw => if occursB kw content then dictExtend d kw [f] else d) acc) k
      = dictLookup acc k ++ (if occursB k content then [f] else []) := by
  induction kws generalizing acc with
  | nil => cases hk
  | cons kw rest ih =>
    simp only [List.foldl_cons]
    by_cases he : k = kw
    · subst he
      have hk2 : k ∉ rest := (List.nodup_cons.mp hnd).1
      rw [kwfold_lookup_not_mem _ _ _ _ _ hk2]
      by_cases h : occursB k content
      · rw [if_pos h, if_pos h, dictLookup_extend_self]
      · rw [if_neg h, if_neg h, List.append_nil]
    · have hk2 : k ∈ rest := by
        rcases List.mem_cons.mp hk with h | h
        · exact absurd h he
        · exact h
      rw [ih _ (List.nodup_cons.mp hnd).2 hk2]
      by_cases h : occursB kw content
      · rw [if_pos h, dictLookup_extend_ne _ _ _ _ he]
      · rw [if_neg h]

theorem scanFile_lookup_mem (fs : FS) (kws : List String) (acc : Dict)
    (f k : String) (hnd : kws.Nodup) (hk : k ∈ kws) :
    dictLookup (scanFile fs kws acc f) k
      = dictLookup acc k ++ (if matchesB fs k f then [f] else []) := by
  unfold scanFile matchesB
  cases fs f with
  | none => simp
  | some content => exact kwfold_lookup_mem content f kws acc k hnd hk

theorem scanFile_lookup_not_mem (fs : FS) (kws : List String) (acc : Dict)
    (f k : String) (hk : k ∉ kws) :
    dictLookup (scanFile fs kws acc f) k = dictLookup acc k := by
  unfold scanFile
  cases fs f with
  | none => rfl
  | some content => exact kwfold_lookup_not_mem content f kws acc k hk

theorem searchFold_lookup_mem (fs : FS) (kws files : List String) (acc : Dict)
    (k : String) (hnd : kws.Nodup) (hk : k ∈ kws) :
    dictLookup (files.foldl (scanFile fs kws) acc) k
      = dictLookup acc k ++ files.filter (matchesB fs k) := by
  induction files generalizing acc with
  | nil => simp
  | cons f rest ih =>
    simp only [List.foldl_cons]
    rw [ih _, scanFile_lookup_mem fs kws acc f k hnd hk, List.filter_cons]
    by_cases h : matchesB fs k f
    · simp [h]
    · simp [h]

theorem searchKeywords_lookup_mem (fs : FS) (files kws : List String)
    (k : String) (hnd : kws.Nodup) (hk : k ∈ kws) :
    dictLookup (searchKeywordsInFiles fs files kws) k
      = files.filter (matchesB fs k) := by
  unfold searchKeywordsInFiles
  rw [searchFold_lookup_mem fs kws files [] k hnd hk]
  rfl

theorem searchKeywords_lookup_not_mem (fs : FS) (files kws : List String)
    (k : String) (hk : k ∉ kws) :
    dictLookup (searchKeywordsInFiles fs files kws) k = [] := by
  unfold searchKeywordsInFiles
  have : ∀ acc : Dict, dictLookup (files.foldl (scanFile fs kws) acc) k
      = dictLookup acc k := by
    induction files with
    | nil => intro acc; rfl
    | cons f rest ih =>
      intro acc
      simp only [List.foldl_cons]
      rw [ih _, scanFile_lookup_not_mem fs kws acc f k hk]
  rw [this []]
  rfl

theorem kwfold_keys_nodup (content f : String) (kws : List String) (acc : Dict)
    (h : (dictKeys acc).Nodup) :
    (dictKeys
      (kws.foldl
        (fun d kw => if occursB kw content then dictExtend d kw [f] else d) acc)).Nodup := by
  induction kws generalizing acc with
  | nil => exact h
  | cons kw rest ih =>
    simp only [List.foldl_cons]
    apply ih
    by_cases hc : occursB kw content
    · rw [if_pos hc]; exact dictKeys_nodup_extend _ _ _ h
    · rwa [if_neg hc]

theorem scanFile_keys_nodup (fs : FS) (kws : List String) (acc : Dict) (f : String)
    (h : (dictKeys acc).Nodup) : (dictKeys (scanFile fs kws acc f)).Nodup := by
  unfold scanFile
  cases fs f with
  | none => exact h
  | some content => exact kwfold_keys_nodup content f kws acc h

theorem searchKeywords_keys_nodup (fs : FS) (files kws : List String) :
    (dictKeys (searchKeywordsInFiles fs files kws)).Nodup := by
  unfold searchKeywordsInFiles
  have : ∀ acc : Dict, (dictKeys acc).Nodup →
      (dictKeys (files.foldl (scanFile fs kws) acc)).Nodup := by
    induction files with
    | nil => intro acc h; exact h
    | cons f rest ih =>
      intro acc h
      simp only [List.foldl_cons]
      exact ih _ (scanFile_keys_nodup fs kws acc f h)
  exact this [] (by simp [dictKeys])

theorem kwfold_vals_ne_nil (content f : String) (kws : List String) (acc : Dict)
    (h : ∀ p ∈ acc, p.2 ≠ []) :
    ∀ p ∈ kws.foldl
        (fun d kw => if occursB kw content then dictExtend d kw [f] else d) acc,
      p.2 ≠ [] := by
  induction kws generalizing acc with
  | nil => exact h
  | cons kw rest ih =>
    simp only [List.foldl_cons]
    apply ih
    by_cases hc : occursB kw content
    · rw [if_pos hc]
      exact dictVals_ne_nil_extend acc kw [f] h (by simp)
    · rwa [if_neg hc]

theorem scanFile_vals_ne_nil (fs : FS) (kws : List String) (acc : Dict) (f : String)
    (h : ∀ p ∈ acc, p.2 ≠ []) : ∀ p ∈ scanFile fs kws acc f, p.2 ≠ [] := by
  unfold scanFile
  cases fs f with
  | none => exact h
  | some content => exact kwfold_vals_ne_nil content f kws acc h

theorem searchKeywords_vals_ne_nil (fs : FS) (files kws : List String) :
    ∀ p ∈ searchKeywordsInFiles fs files kws, p.2 ≠ [] := by
  unfold searchKeywordsInFiles
  have : ∀ acc : Dict, (∀ p ∈ acc, p.2 ≠ []) →
      ∀ p ∈ files.foldl (scanFile fs kws) acc, p.2 ≠ [] := by
    induction files with
    | nil => intro acc h; exact h
    | cons f rest ih =>
      intro acc h
      simp only [List.foldl_cons]
      exact ih _ (scanFile_vals_ne_nil fs kws acc f h)
  exact this [] (by simp)

theorem kwfold_good (fs : FS) (content f : String) (hf : fs f = some content)
    (kws : List String) (acc : Dict)
    (h : ∀ k x, x ∈ dictLookup acc k → matchesB fs k x = true) :
    ∀ k x,
      x ∈ dictLookup
        (kws.foldl
          (fun d kw => if occursB kw content then dictExtend d kw [f] else d) acc) k →
      matchesB fs k x = true := by
  induction kws generalizing acc with
  | nil => exact h
  | cons kw rest ih =>
    simp only [List.foldl_cons]
    apply ih
    by_cases hc : occursB kw content
    · rw [if_pos hc]
      intro k x hx
      by_cases he : k = kw
      · subst he
        rw [dictLookup_extend_self] at hx
        rcases List.mem_append.mp hx with hx | hx
        · exact h k x hx
        · rcases List.mem_singleton.mp hx with rfl
          simp [matchesB, hf, hc]
      · rw [dictLookup_extend_ne _ _ _ _ he] at hx
        exact h k x hx
    · rw [if_neg hc]
      exact h

theorem scanFile_good (fs : FS) (kws : List String) (acc : Dict) (f : String)
    (h : ∀ k x, x ∈ dictLookup acc k → matchesB fs k x = true) :
    ∀ k x, x ∈ dictLookup (scanFile fs kws acc f) k → matchesB fs k x = true := by
  unfold scanFile
  cases hf : fs f with
  | none => exact h
  | some content => exact kwfold_good fs content f hf kws acc h

theorem searchKeywords_good (fs : FS) (files kws : List String) :
    ∀ k x, x ∈ dictLookup (searchKeywordsInFiles fs files kws) k →
      matchesB fs k x = true := by
  unfold searchKeywordsInFiles
  have : ∀ acc : Dict, (∀ k x, x ∈ dictLookup acc k → matchesB fs k x = true) →
      ∀ k x, x ∈ dictLookup (files.foldl (scanFile fs kws) acc) k →
        matchesB fs k x = true := by
    induction files with
    | nil => intro acc h; exact h
    | cons f rest ih =>
      intro acc h
      simp only [List.foldl_cons]
      exact ih _ (scanFile_good fs kws acc f h)
  exact this [] (by intro k x hx; cases hx)

/-! ### Aggregator lemmas -/

theorem mergeOne_lookup (acc res : Dict) (k : String)
    (hres : (dictKeys res).Nodup) :
    dictLookup (mergeOne acc res) k = dictLookup acc k ++ dictLookup res k := by
  induction res generalizing acc with
  | nil => simp [mergeOne, dictLookup]
  | cons p rest ih =>
    obtain ⟨k1, v1⟩ := p
    simp only [mergeOne, List.foldl_cons] at *
    rw [ih (dictExtend acc k1 v1) (List.nodup_cons.mp hres).2]
    by_cases he : k1 = k
    · subst he
      have hk : k1 ∉ dictKeys rest := by
        have := (List.nodup_cons.mp hres).1
        simpa [dictKeys] using this
      rw [dictLookup_extend_self, dictLookup_eq_nil_of_not_mem rest k1 hk]
      simp [dictLookup]
    · rw [dictLookup_extend_ne _ _ _ _ (fun e => he e.symm)]
      simp [dictLookup, he]

theorem merge_results_lookup (L : List Dict) (k : String)
    (h : ∀ d ∈ L, (dictKeys d).Nodup) :
    dictLookup (merge_results L) k = (L.map (fun d => dictLookup d k)).flatten := by
  unfold merge_results
  have key : ∀ (M : List Dict) (acc : Dict), (∀ d ∈ M, (dictKeys d).Nodup) →
      dictLookup (M.foldl mergeOne acc) k
        = dictLookup acc k ++ (M.map (fun d => dictLookup d k)).flatten := by
    intro M
    induction M with
    | nil => intro acc _; simp
    | cons d rest ih =>
      intro acc hL
      simp only [List.foldl_cons, List.map_cons, List.flatten_cons]
      rw [ih _ (fun d' hd' => hL d' (List.mem_cons_of_mem _ hd')),
        mergeOne_lookup acc d k (hL d (List.mem_cons_self _ _)),
        List.append_assoc]
  rw [key L [] h]
  rfl

theorem mergeOne_keys (acc res : Dict) (k : String) :
    k ∈ dictKeys (mergeOne acc res) ↔ k ∈ dictKeys acc ∨ k ∈ dictKeys res := by
  induction res generalizing acc with
  | nil => simp [mergeOne, dictKeys]
  | cons p rest ih =>
    obtain ⟨k1, v1⟩ := p
    simp only [mergeOne, List.foldl_cons] at *
    rw [ih (dictExtend acc k1 v1)]
    rw [mem_dictKeys_extend]
    simp only [dictKeys, List.map_cons, List.mem_cons]
    tauto

theorem merge_results_keys (L : List Dict) (k : String) :
    k ∈ dictKeys (merge_results L) ↔ ∃ d ∈ L, k ∈ dictKeys d := by
  unfold merge_results
  have : ∀ acc : Dict, k ∈ dictKeys (L.foldl mergeOne acc)
      ↔ k ∈ dictKeys acc ∨ ∃ d ∈ L, k ∈ dictKeys d := by
    induction L with
    | nil => intro acc; simp
    | cons d rest ih =>
      intro acc
      simp only [List.foldl_cons]
      rw [ih (mergeOne acc d), mergeOne_keys]
      simp only [List.mem_cons]
      constructor
      · rintro ((h | h) | ⟨d', hd', h⟩)
        · exact Or.inl h
        · exact Or.inr ⟨d, Or.inl rfl, h⟩
        · exact Or.inr ⟨d', Or.inr hd', h⟩
      · rintro (h | ⟨d', hd' | hd', h⟩)
        · exact Or.inl (Or.inl h)
        · exact Or.inl (Or.inr (hd' ▸ h))
        · exact Or.inr ⟨d', hd', h⟩
  rw [this []]
  simp [dictKeys]

theorem mergeOne_vals_ne_nil (acc res : Dict)
    (hacc : ∀ p ∈ acc, p.2 ≠ []) (hres : ∀ p ∈ res, p.2 ≠ []) :
    ∀ p ∈ mergeOne acc res, p.2 ≠ [] := by
  induction res generalizing acc with
  | nil => exact hacc
  | cons p rest ih =>
    obtain ⟨k1, v1⟩ := p
    simp only [mergeOne, List.foldl_cons] at *
    exact ih (dictExtend acc k1 v1)
      (dictVals_ne_nil_extend acc k1 v1 hacc (hres (k1, v1) (List.mem_cons_self _ _)))
      (fun q hq => hres q (List.mem_cons_of_mem _ hq))

theorem merge_results_vals_ne_nil (L : List Dict)
    (h : ∀ d ∈ L, ∀ p ∈ d, p.2 ≠ []) :
    ∀ p ∈ merge_results L, p.2 ≠ [] := by
  unfold merge_results
  have key : ∀ (M : List Dict) (acc : Dict), (∀ d ∈ M, ∀ p ∈ d, p.2 ≠ []) →
      (∀ p ∈ acc, p.2 ≠ []) → ∀ p ∈ M.foldl mergeOne acc, p.2 ≠ [] := by
    intro M
    induction M with
    | nil => intro acc _ hacc; exact hacc
    | cons d rest ih =>
      intro acc hM hacc
      simp only [List.foldl_cons]
      exact ih _ (fun d' hd' => hM d' (List.mem_cons_of_mem _ hd'))
        (mergeOne_vals_ne_nil acc d hacc (hM d (List.mem_cons_self _ _)))
  exact key L [] h (by intro p hp; cases hp)

/-! ### Partitioner lemmas -/

theorem flatten_map_nil {α β : Type} (is : List β) :
    (is.map (fun _ => ([] : List α))).flatten = [] := by
  induction is with
  | nil => rfl
  | cons i rest ih => simp [ih]

theorem flatten_filter_cons_perm {α : Type} (f : α → Nat) (x : α) (xs : List α) :
    ∀ is : List Nat, is.Nodup → f x ∈ is →
      List.Perm ((is.map (fun i => (x :: xs).filter (fun y => f y == i))).flatten)
        (x :: (is.map (fun i => xs.filter (fun y => f y == i))).flatten) := by
  intro is
  induction is with
  | nil => intro _ hmem; cases hmem
  | cons i rest ih =>
    intro hnd hmem
    simp only [List.map_cons, List.flatten_cons]
    by_cases he : f x = i
    · have hx : f x ∉ rest := by
        rw [he]; exact (List.nodup_cons.mp hnd).1
      have hcongr : rest.map (fun j => (x :: xs).filter (fun y => f y == j))
          = rest.map (fun j => xs.filter (fun y => f y == j)) := by
        apply List.map_congr_left
        intro j hj
        have hne : ¬(f x == j) = true := by
          simp only [beq_iff_eq]
          intro e; exact hx (e ▸ hj)
        rw [List.filter_cons, if_neg hne]
      rw [hcongr, List.filter_cons, if_pos (by simp [he])]
      exact List.Perm.refl _
    · have hmem' : f x ∈ rest := by
        rcases List.mem_cons.mp hmem with h | h
        · exact absurd h he
        · exact h
      have hx : ¬(f x == i) = true := by simp [he]
      rw [List.filter_cons, if_neg hx]
      exact ((ih (List.nodup_cons.mp hnd).2 hmem').append_left _).trans List.perm_middle

theorem flatten_bucket_perm {α : Type} (f : α → Nat) (is : List Nat)
    (hnd : is.Nodup) :
    ∀ l : List α, (∀ y ∈ l, f y ∈ is) →
      List.Perm ((is.map (fun i => l.filter (fun y => f y == i))).flatten) l := by
  intro l
  induction l with
  | nil =>
    intro _
    simp only [List.filter_nil, flatten_map_nil]
    exact List.Perm.refl []
  | cons x xs ih =>
    intro hmem
    exact (flatten_filter_cons_perm f x xs is hnd (hmem x (List.mem_cons_self _ _))).trans
      ((ih (fun y hy => hmem y (List.mem_cons_of_mem _ hy))).cons x)

theorem chunkify_length {α : Type} (lst : List α) (n : Nat) :
    (chunkify lst n).length = n := by
  simp [chunkify]

theorem sliceStep_sublist {α : Type} (lst : List α) (i n : Nat) :
    (sliceStep lst i n).Sublist lst := by
  have h1 : (lst.enum.filter (fun p => p.1 % n == i)).Sublist lst.enum :=
    List.filter_sublist _
  have h2 := h1.map Prod.snd
  rwa [List.enum_map_snd] at h2

theorem chunkify_flatten_perm {α : Type} (lst : List α) (n : Nat) (hn : 1 ≤ n) :
    List.Perm (chunkify lst n).flatten lst := by
  have hb := flatten_bucket_perm (fun p : Nat × α => p.1 % n) (List.range n)
    (List.nodup_range n) lst.enum
    (fun y _ => List.mem_range.mpr (Nat.mod_lt _ hn))
  have hmap := hb.map Prod.snd
  rw [List.enum_map_snd] at hmap
  have heq : (chunkify lst n).flatten
      = (((List.range n).map
          (fun i => lst.enum.filter (fun p => p.1 % n == i))).flatten).map Prod.snd := by
    unfold chunkify sliceStep
    rw [List.map_flatten, List.map_map]
    rfl
  rw [heq]
  exact hmap

theorem chunkify_index {α : Type} (lst : List α) (n i : Nat) (d0 : α)
    (hn : 1 ≤ n) (hi : i < lst.length) :
    lst.getD i d0 ∈ (chunkify lst n).getD (i % n) [] := by
  have hmod : i % n < n := Nat.mod_lt _ hn
  have hlen : i % n < (chunkify lst n).length := by
    rw [chunkify_length]; exact hmod
  rw [List.getD_eq_getElem _ _ hlen, List.getD_eq_getElem _ _ hi]
  have hchunk : (chunkify lst n)[i % n] = sliceStep lst (i % n) n := by
    simp [chunkify]
  rw [hchunk]
  unfold sliceStep
  have hei : i < lst.enum.length := by simpa using hi
  have henum : (i, lst[i]) ∈ lst.enum := by
    have hg : lst.enum[i] = (i, lst[i]) := List.getElem_enum lst i hei
    rw [← hg]
    exact List.getElem_mem hei
  have hfil : (i, lst[i]) ∈ lst.enum.filter (fun p => p.1 % n == i % n) :=
    List.mem_filter.mpr ⟨henum, by simp⟩
  exact List.mem_map.mpr ⟨(i, lst[i]), hfil, rfl⟩

/-! ### Run-level lemmas -/

theorem spawnedResults_keys_nodup (fs : FS) (files kws : List String) (n : Nat) :
    ∀ d ∈ spawnedResults fs files kws n, (dictKeys d).Nodup := by
  intro d hd
  rcases List.mem_map.mp hd with ⟨c, _, rfl⟩
  exact searchKeywords_keys_nodup fs c kws

theorem spawnedResults_vals_ne_nil (fs : FS) (files kws : List String) (n : Nat) :
    ∀ d ∈ spawnedResults fs files kws n, ∀ p ∈ d, p.2 ≠ [] := by
  intro d hd
  rcases List.mem_map.mp hd with ⟨c, _, rfl⟩
  exact searchKeywords_vals_ne_nil fs c kws

theorem spawned_lookup_flatten (fs : FS) (files kws : List String) (k : String)
    (n : Nat) (hnd : kws.Nodup) (hk : k ∈ kws) :
    ((spawnedResults fs files kws n).map (fun d => dictLookup d k)).flatten
      = ((chunkify files n).map (fun c => c.filter (matchesB fs k))).flatten := by
  unfold spawnedResults
  rw [List.map_map]
  have hcongr : ((chunkify files n).filter (fun c => !c.isEmpty)).map
        ((fun d => dictLookup d k) ∘ fun chunk => searchKeywordsInFiles fs chunk kws)
      = ((chunkify files n).filter (fun c => !c.isEmpty)).map
        (fun c => c.filter (matchesB fs k)) := by
    apply List.map_congr_left
    intro c _
    exact searchKeywords_lookup_mem fs c kws k hnd hk
  rw [hcongr]
  generalize chunkify files n = chunks
  induction chunks with
  | nil => rfl
  | cons c rest ih =>
    by_cases hc : c.isEmpty
    · have hce : c = [] := List.isEmpty_iff.mp hc
      subst hce
      simp [List.filter_cons, ih]
    · simp [List.filter_cons, hc, ih]

theorem run_threading_lookup_mem (fs : FS) (files kws : List String) (k : String)
    (n : Nat) (hnd : kws.Nodup) (hk : k ∈ kws) (hn : 1 ≤ n) :
    List.Perm (dictLookup (run_threading fs files kws n) k)
      (files.filter (matchesB fs k)) := by
  unfold run_threading
  rw [merge_results_lookup _ _ (spawnedResults_keys_nodup fs files kws n),
    spawned_lookup_flatten fs files kws k n hnd hk,
    ← List.filter_flatten]
  exact (chunkify_flatten_perm files n hn).filter _

theorem run_threading_lookup_not_mem (fs : FS) (files kws : List String)
    (k : String) (n : Nat) (hk : k ∉ kws) :
    dictLookup (run_threading fs files kws n) k = [] := by
  unfold run_threading
  rw [merge_results_lookup _ _ (spawnedResults_keys_nodup fs files kws n)]
  unfold spawnedResults
  rw [List.map_map]
  have hcongr : ((chunkify files n).filter (fun c => !c.isEmpty)).map
        ((fun d => dictLookup d k) ∘ fun chunk => searchKeywordsInFiles fs chunk kws)
      = ((chunkify files n).filter (fun c => !c.isEmpty)).map (fun _ => []) := by
    apply List.map_congr_left
    intro c _
    exact searchKeywords_lookup_not_mem fs c kws k hk
  rw [hcongr, flatten_map_nil]

theorem run_threading_keys_iff_lookup (fs : FS) (files kws : List String)
    (k : String) (n : Nat) :
    k ∈ dictKeys (run_threading fs files kws n)
      ↔ dictLookup (run_threading fs files kws n) k ≠ [] := by
  unfold run_threading
  exact mem_dictKeys_iff_lookup _ k
    (merge_results_vals_ne_nil _ (spawnedResults_vals_ne_nil fs files kws n))

/-! ### Substring characterization -/

theorem listStartsWith_iff (pat : List Char) :
    ∀ s : List Char, listStartsWith s pat = true ↔ ∃ r, s = pat ++ r := by
  induction pat with
  | nil =>
    intro s
    cases s <;> simp [listStartsWith]
  | cons b bs ih =>
    intro s
    cases s with
    | nil => simp [listStartsWith]
    | cons a as => simp [listStartsWith, List.cons_append, ih as]

theorem hasSubstr_iff (pat : List Char) :
    ∀ s : List Char, hasSubstr s pat = true ↔ ∃ l r, s = l ++ pat ++ r := by
  intro s
  induction s with
  | nil =>
    constructor
    · intro h
      refine ⟨[], [], ?_⟩
      have : pat = [] := by simpa [hasSubstr, List.isEmpty_iff] using h
      simp [this]
    · rintro ⟨l, r, h⟩
      have := h.symm
      simp only [List.append_eq_nil] at this
      simp [hasSubstr, List.isEmpty_iff, this.1.2]
  | cons c rest ih =>
    simp only [hasSubstr, Bool.or_eq_true]
    rw [listStartsWith_iff pat (c :: rest), ih]
    constructor
    · rintro (⟨r, hr⟩ | ⟨l, r, hlr⟩)
      · exact ⟨[], r, by simp [hr]⟩
      · exact ⟨c :: l, r, by simp [hlr]⟩
    · rintro ⟨l, r, hlr⟩
      cases l with
      | nil => exact Or.inl ⟨r, by simpa using hlr⟩
      | cons c' l' =>
        simp only [List.cons_append, List.cons.injEq] at hlr
        exact Or.inr ⟨l', r, hlr.2⟩

theorem occursB_iff (kw content : String) :
    occursB kw content = true ↔ ∃ l r, content.data = l ++ kw.data ++ r :=
  hasSubstr_iff kw.data content.data

/-! ### Pair-multiset lemmas -/

theorem dictPairs_cons (k1 : String) (v1 : List String) (rest : Dict) :
    dictPairs ((k1, v1) :: rest) = v1.map (fun x => (k1, x)) ++ dictPairs rest := by
  simp [dictPairs]

theorem count_pair_map (k1 k f : String) (v : List String) :
    List.count (k, f) (v.map (fun x => (k1, x)))
      = if k1 = k then List.count f v else 0 := by
  induction v with
  | nil => simp
  | cons x xs ih =>
    simp only [List.map_cons, List.count_cons, ih, beq_iff_eq, Prod.mk.injEq]
    by_cases h1 : k1 = k <;> by_cases h2 : x = f <;> simp [h1, h2]

theorem mem_dictPairs_keys (d : Dict) (k f : String)
    (h : (k, f) ∈ dictPairs d) : k ∈ dictKeys d := by
  unfold dictPairs at h
  rcases List.mem_flatten.mp h with ⟨block, hblock, hmem⟩
  rcases List.mem_map.mp hblock with ⟨p, hp, rfl⟩
  rcases List.mem_map.mp hmem with ⟨x, _, he⟩
  have h1 : p.1 = k := congrArg Prod.fst he
  exact h1 ▸ List.mem_map.mpr ⟨p, hp, rfl⟩

theorem dictPairs_count (d : Dict) (k f : String) (hnd : (dictKeys d).Nodup) :
    List.count (k, f) (dictPairs d) = List.count f (dictLookup d k) := by
  induction d with
  | nil => simp [dictPairs, dictLookup]
  | cons p rest ih =>
    obtain ⟨k1, v1⟩ := p
    have hnd2 : (k1 :: dictKeys rest).Nodup := hnd
    have hsplit := List.nodup_cons.mp hnd2
    have hk1 : k1 ∉ dictKeys rest := hsplit.1
    have hnd' : (dictKeys rest).Nodup := hsplit.2
    rw [dictPairs_cons, List.count_append, count_pair_map]
    by_cases he : k1 = k
    · subst he
      have hzero : List.count (k1, f) (dictPairs rest) = 0 := by
        rw [List.count_eq_zero]
        intro hmem
        exact hk1 (mem_dictPairs_keys rest k1 f hmem)
      simp [dictLookup, hzero]
    · simp [dictLookup, he, ih hnd']

theorem dictLookup_tabulate (g : String → List String) (kws : List String)
    (k : String) :
    dictLookup (kws.map (fun kw => (kw, g kw))) k
      = if k ∈ kws then g k else [] := by
  induction kws with
  | nil => simp [dictLookup]
  | cons kw rest ih =>
    simp only [List.map_cons, dictLookup]
    by_cases he : kw = k
    · subst he; simp
    · have hne : ¬k = kw := fun e => he e.symm
      simp [he, hne, ih]

theorem dictKeys_tabulate (g : String → List String) (kws : List String) :
    dictKeys (kws.map (fun kw => (kw, g kw))) = kws := by
  rw [dictKeys, List.map_map]
  exact List.map_id kws

theorem truePairs_count (fs : FS) (files kws : List String) (k f : String)
    (hnd : kws.Nodup) :
    List.count (k, f) (truePairs fs files kws)
      = if k ∈ kws then List.count f (files.filter (matchesB fs k)) else 0 := by
  unfold truePairs
  rw [dictPairs_count _ k f
    (by rw [dictKeys_tabulate]; exact hnd),
    dictLookup_tabulate]
  by_cases hk : k ∈ kws <;> simp [hk]

theorem perm_ne_nil {α : Type} {a b : List α} (h : List.Perm a b) :
    a ≠ [] ↔ b ≠ [] := by
  constructor
  · intro h1 h2
    exact h1 (h2 ▸ h).eq_nil
  · intro h1 h2
    exact h1 (h2 ▸ h.symm).eq_nil

theorem mergeOne_keys_nodup (acc res : Dict) (h : (dictKeys acc).Nodup) :
    (dictKeys (mergeOne acc res)).Nodup := by
  induction res generalizing acc with
  | nil => exact h
  | cons p rest ih =>
    simp only [mergeOne, List.foldl_cons] at *
    exact ih _ (dictKeys_nodup_extend _ _ _ h)

theorem merge_results_keys_nodup (L : List Dict) :
    (dictKeys (merge_results L)).Nodup := by
  unfold merge_results
  have key : ∀ (M : List Dict) (acc : Dict), (dictKeys acc).Nodup →
      (dictKeys (M.foldl mergeOne acc)).Nodup := by
    intro M
    induction M with
    | nil => intro acc h; exact h
    | cons d rest ih => intro acc h; exact ih _ (mergeOne_keys_nodup acc d h)
  exact key L [] (by simp [dictKeys])

/-! ### Claim theorems -/

/-- C2: for every list and every `n ≥ 1`, `chunkify` returns exactly `n`
partitions, the element at input index `i` lands in partition `i % n`,
each partition is an order-preserving subsequence of the input, the
partitions are a complete cover (their concatenation is a permutation of
the input, so nothing is dropped or duplicated), and for duplicate-free
inputs the partitions are pairwise disjoint. -/
theorem C2_chunkify_round_robin_partition {α : Type} (l : List α) (n : Nat)
    (hn : 1 ≤ n) :
    (chunkify l n).length = n ∧
    (∀ (d0 : α) (i : Nat), i < l.length →
        l.getD i d0 ∈ (chunkify l n).getD (i % n) []) ∧
    (∀ c ∈ chunkify l n, c.Sublist l) ∧
    List.Perm (chunkify l n).flatten l ∧
    (l.Nodup → (chunkify l n).Pairwise List.Disjoint) := by
  refine ⟨chunkify_length l n, ?_, ?_, chunkify_flatten_perm l n hn, ?_⟩
  · intro d0 i hi
    exact chunkify_index l n i d0 hn hi
  · intro c hc
    rcases List.mem_map.mp hc with ⟨i, _, rfl⟩
    exact sliceStep_sublist l i n
  · intro hnd
    have hflat : (chunkify l n).flatten.Nodup :=
      ((chunkify_flatten_perm l n hn).nodup_iff).mpr hnd
    exact (List.nodup_flatten.mp hflat).2

theorem C2_witness :
    (chunkify files0 2).length = 2 ∧
    (∀ (d0 : String) (i : Nat), i < files0.length →
        files0.getD i d0 ∈ (chunkify files0 2).getD (i % 2) []) ∧
    (∀ c ∈ chunkify files0 2, c.Sublist files0) ∧
    List.Perm (chunkify files0 2).flatten files0 ∧
    (files0.Nodup → (chunkify files0 2).Pairwise List.Disjoint) :=
  C2_chunkify_round_robin_partition files0 2 (by decide)

/-- C3: the Scanner tests every readable file of the partition against
every keyword with exact, case-sensitive substring containment on the
full content, appends a file to a keyword's list exactly when the keyword
occurs in the content, and each keyword's result list follows the
partition's file order (it equals the partition filtered by the match
predicate). -/
theorem C3_scanner_exact_substring (fs : FS) (part kws : List String)
    (hnd : kws.Nodup) :
    (∀ kw content, occursB kw content = true ↔
        ∃ l r, content.data = l ++ kw.data ++ r) ∧
    (∀ kw, kw ∈ kws →
        dictLookup (searchKeywordsInFiles fs part kws) kw
          = part.filter (matchesB fs kw)) ∧
    (∀ kw, kw ∈ kws → ∀ f,
        f ∈ dictLookup (searchKeywordsInFiles fs part kws) kw ↔
          f ∈ part ∧ ∃ content, fs f = some content ∧ occursB kw content = true) := by
  refine ⟨fun kw content => occursB_iff kw content, ?_, ?_⟩
  · intro kw hkw
    exact searchKeywords_lookup_mem fs part kws kw hnd hkw
  · intro kw hkw f
    rw [searchKeywords_lookup_mem fs part kws kw hnd hkw, List.mem_filter]
    constructor
    · rintro ⟨hf, hm⟩
      refine ⟨hf, ?_⟩
      unfold matchesB at hm
      cases hc : fs f with
      | none => rw [hc] at hm; cases hm
      | some content => rw [hc] at hm; exact ⟨content, rfl, hm⟩
    · rintro ⟨hf, content, hc, ho⟩
      refine ⟨hf, ?_⟩
      unfold matchesB
      rw [hc]
      exact ho

theorem C3_witness :
    (∀ kw content, occursB kw content = true ↔
        ∃ l r, content.data = l ++ kw.data ++ r) ∧
    (∀ kw, kw ∈ kws0 →
        dictLookup (searchKeywordsInFiles fs0 files0 kws0) kw
          = files0.filter (matchesB fs0 kw)) ∧
    (∀ kw, kw ∈ kws0 → ∀ f,
        f ∈ dictLookup (searchKeywordsInFiles fs0 files0 kws0) kw ↔
          f ∈ files0 ∧ ∃ content, fs0 f = some content ∧ occursB kw content = true) :=
  C3_scanner_exact_substring fs0 files0 kws0 (by decide)

/-- C5: the Aggregator is the left-fold of per-dictionary concatenation:
`merge_results` folds the partials in the order received, each keyword's
final list is the concatenation of that keyword's lists over the partials
in merge order (so multiplicity is preserved and nothing is
deduplicated), and a keyword has an entry in the result exactly when some
partial has an entry for it (created on first appearance). -/
theorem C5_merge_left_fold_concat (L : List Dict)
    (h : ∀ d ∈ L, (dictKeys d).Nodup) :
    merge_results L = L.foldl mergeOne [] ∧
    (∀ k, dictLookup (merge_results L) k
        = (L.map (fun d => dictLookup d k)).flatten) ∧
    (∀ k, k ∈ dictKeys (merge_results L) ↔ ∃ d ∈ L, k ∈ dictKeys d) :=
  ⟨rfl, fun k => merge_results_lookup L k h, fun k => merge_results_keys L k⟩

theorem C5_witness :
    merge_results [[("a", ["x"])], [("a", ["y"]), ("b", ["z"])]]
      = [[("a", ["x"])], [("a", ["y"]), ("b", ["z"])]].foldl mergeOne [] ∧
    (∀ k, dictLookup (merge_results [[("a", ["x"])], [("a", ["y"]), ("b", ["z"])]]) k
        = ([[("a", ["x"])], [("a", ["y"]), ("b", ["z"])]].map
            (fun d => dictLookup d k)).flatten) ∧
    (∀ k, k ∈ dictKeys (merge_results [[("a", ["x"])], [("a", ["y"]), ("b", ["z"])]])
        ↔ ∃ d ∈ [[("a", ["x"])], [("a", ["y"]), ("b", ["z"])]], k ∈ dictKeys d) :=
  C5_merge_left_fold_concat [[("a", ["x"])], [("a", ["y"]), ("b", ["z"])]] (by decide)

/-- C10: with a worker count of 0 (the only Nat below 1; Python's
`range(n)` is likewise empty for every `n < 1`), `chunkify` produces no
partitions, no worker is spawned, and both strategies return the empty
mapping without any error — the code performs no validation of the worker
count. -/
theorem C10_zero_workers_empty_result (fs : FS) (files kws : List String) :
    chunkify files 0 = ([] : List (List String)) ∧
    spawnedResults fs files kws 0 = [] ∧
    run_threading fs files kws 0 = [] ∧
    run_multiprocessing fs files kws 0 = [] :=
  ⟨rfl, rfl, rfl, rfl⟩

theorem run_threading_good (fs : FS) (files kws : List String) (n : Nat) :
    ∀ k x, x ∈ dictLookup (run_threading fs files kws n) k →
      matchesB fs k x = true := by
  intro k x hx
  unfold run_threading at hx
  rw [merge_results_lookup _ _ (spawnedResults_keys_nodup fs files kws n)] at hx
  rcases List.mem_flatten.mp hx with ⟨block, hblock, hmem⟩
  rcases List.mem_map.mp hblock with ⟨d, hd, rfl⟩
  rcases List.mem_map.mp hd with ⟨c, _, rfl⟩
  exact searchKeywords_good fs c kws k x hmem

theorem searchKeywords_skip_unreadable (fs : FS) (files kws : List String)
    (f0 : String) (h0 : fs f0 = none) :
    searchKeywordsInFiles fs files kws
      = searchKeywordsInFiles fs (files.filter (fun f => f != f0)) kws := by
  unfold searchKeywordsInFiles
  have key : ∀ acc : Dict, files.foldl (scanFile fs kws) acc
      = (files.filter (fun f => f != f0)).foldl (scanFile fs kws) acc := by
    induction files with
    | nil => intro acc; rfl
    | cons f rest ih =>
      intro acc
      simp only [List.foldl_cons, List.filter_cons]
      by_cases he : f = f0
      · subst he
        rw [if_neg (by simp)]
        have hskip : scanFile fs kws acc f = acc := by
          unfold scanFile
          rw [h0]
        rw [hskip]
        exact ih acc
      · rw [if_pos (by simp [he])]
        simp only [List.foldl_cons]
        exact ih _
  exact key []

/-- C6: a file that fails to read or decode is skipped for all keywords —
it appears in no keyword's list, neither in the Scanner's partial result
nor in any run's final result — a diagnostic is emitted for it, and the
failure changes nothing else: the scan equals the scan of the partition
with the unreadable file removed. -/
theorem C6_unreadable_file_isolated (fs : FS) (files kws : List String)
    (f0 : String) (h0 : fs f0 = none) :
    (∀ k, f0 ∉ dictLookup (searchKeywordsInFiles fs files kws) k) ∧
    searchKeywordsInFiles fs files kws
      = searchKeywordsInFiles fs (files.filter (fun f => f != f0)) kws ∧
    (f0 ∈ files → f0 ∈ searchDiagnostics fs files) ∧
    (∀ n k, f0 ∉ dictLookup (run_threading fs files kws n) k) ∧
    (∀ n k, f0 ∉ dictLookup (run_multiprocessing fs files kws n) k) := by
  have hbad : matchesB fs f0 f0 = false := by
    unfold matchesB
    rw [h0]
  refine ⟨?_, searchKeywords_skip_unreadable fs files kws f0 h0, ?_, ?_, ?_⟩
  · intro k hmem
    have := searchKeywords_good fs files kws k f0 hmem
    unfold matchesB at this
    rw [h0] at this
    cases this
  · intro hf
    unfold searchDiagnostics
    exact List.mem_filter.mpr ⟨hf, by simp [h0]⟩
  · intro n k hmem
    have := run_threading_good fs files kws n k f0 hmem
    unfold matchesB at this
    rw [h0] at this
    cases this
  · intro n k hmem
    have := run_threading_good fs files kws n k f0 hmem
    unfold matchesB at this
    rw [h0] at this
    cases this

theorem C6_witness :
    (∀ k, "missing.txt" ∉ dictLookup (searchKeywordsInFiles fs0
        ["f1.txt", "missing.txt", "f2.txt"] kws0) k) ∧
    searchKeywordsInFiles fs0 ["f1.txt", "missing.txt", "f2.txt"] kws0
      = searchKeywordsInFiles fs0
          (["f1.txt", "missing.txt", "f2.txt"].filter (fun f => f != "missing.txt")) kws0 ∧
    ("missing.txt" ∈ ["f1.txt", "missing.txt", "f2.txt"] →
        "missing.txt" ∈ searchDiagnostics fs0 ["f1.txt", "missing.txt", "f2.txt"]) ∧
    (∀ n k, "missing.txt" ∉ dictLookup (run_threading fs0
        ["f1.txt", "missing.txt", "f2.txt"] kws0 n) k) ∧
    (∀ n k, "missing.txt" ∉ dictLookup (run_multiprocessing fs0
        ["f1.txt", "missing.txt", "f2.txt"] kws0 n) k) :=
  C6_unreadable_file_isolated fs0 ["f1.txt", "missing.txt", "f2.txt"] kws0
    "missing.txt" (by decide)

/-- C8: a worker is spawned for a partition exactly when the partition is
non-empty (the filter keeps precisely the non-empty chunks), the result
equals what merging over all partitions — empty ones included — would
produce (so the skipped empty partitions contribute nothing), and with 4
workers over a 3-file list exactly 3 workers are spawned. -/
theorem C8_spawn_iff_nonempty (fs : FS) (files kws : List String) (n : Nat) :
    run_threading fs files kws n
      = merge_results ((chunkify files n).map
          (fun c => searchKeywordsInFiles fs c kws)) ∧
    run_multiprocessing fs files kws n
      = merge_results ((chunkify files n).map
          (fun c => searchKeywordsInFiles fs c kws)) ∧
    (∀ c : List String,
        c ∈ (chunkify files n).filter (fun c => !c.isEmpty)
          ↔ c ∈ chunkify files n ∧ c ≠ []) ∧
    (∀ a b c : String,
        ((chunkify [a, b, c] 4).filter (fun x => !x.isEmpty)).length = 3) := by
  have key : ∀ (chunks : List (List String)) (acc : Dict),
      ((chunks.filter (fun c => !c.isEmpty)).map
          (fun c => searchKeywordsInFiles fs c kws)).foldl mergeOne acc
        = (chunks.map (fun c => searchKeywordsInFiles fs c kws)).foldl mergeOne acc := by
    intro chunks
    induction chunks with
    | nil => intro acc; rfl
    | cons c rest ih =>
      intro acc
      simp only [List.filter_cons, List.map_cons]
      by_cases hc : c.isEmpty
      · have hce : c = [] := List.isEmpty_iff.mp hc
        subst hce
        rw [if_neg (by simp)]
        simp only [List.foldl_cons]
        rw [show searchKeywordsInFiles fs [] kws = [] from rfl,
          show mergeOne acc [] = acc from rfl]
        exact ih acc
      · rw [if_pos (by simpa using hc)]
        simp only [List.map_cons, List.foldl_cons]
        exact ih _
  have hrun : run_threading fs files kws n
      = merge_results ((chunkify files n).map
          (fun c => searchKeywordsInFiles fs c kws)) := by
    unfold run_threading merge_results spawnedResults
    exact key (chunkify files n) []
  refine ⟨hrun, hrun, ?_, fun a b c => rfl⟩
  intro c
  rw [List.mem_filter]
  constructor
  · rintro ⟨h1, h2⟩
    refine ⟨h1, ?_⟩
    intro hce
    rw [hce] at h2
    cases h2
  · rintro ⟨h1, h2⟩
    refine ⟨h1, ?_⟩
    simpa [List.isEmpty_iff] using h2

theorem run_lookup_perm_of_counts (fs : FS) (files kws : List String)
    (n1 n2 : Nat) (hn1 : 1 ≤ n1) (hn2 : 1 ≤ n2) (hnd : kws.Nodup) (k : String) :
    List.Perm (dictLookup (run_threading fs files kws n1) k)
      (dictLookup (run_threading fs files kws n2) k) := by
  by_cases hk : k ∈ kws
  · exact (run_threading_lookup_mem fs files kws k n1 hnd hk hn1).trans
      (run_threading_lookup_mem fs files kws k n2 hnd hk hn2).symm
  · rw [run_threading_lookup_not_mem fs files kws k n1 hk,
      run_threading_lookup_not_mem fs files kws k n2 hk]

/-- C1: the final result's content does not depend on the worker count:
for any two worker counts `n1 ≠ n2` (both at least 1), both strategies
produce results with the same keyword set and, for every keyword, the
same multiset of files; in particular the sequential run with one worker
agrees with every parallel run. -/
theorem C1_worker_count_irrelevant (fs : FS) (files kws : List String)
    (n1 n2 : Nat) (hn1 : 1 ≤ n1) (hn2 : 1 ≤ n2) (hne : n1 ≠ n2)
    (hnd : kws.Nodup) :
    (∀ k, k ∈ dictKeys (run_threading fs files kws n1)
        ↔ k ∈ dictKeys (run_threading fs files kws n2)) ∧
    (∀ k, (↑(dictLookup (run_threading fs files kws n1) k) : Multiset String)
        = ↑(dictLookup (run_threading fs files kws n2) k)) ∧
    (∀ k, k ∈ dictKeys (run_multiprocessing fs files kws n1)
        ↔ k ∈ dictKeys (run_multiprocessing fs files kws n2)) ∧
    (∀ k, (↑(dictLookup (run_multiprocessing fs files kws n1) k) : Multiset String)
        = ↑(dictLookup (run_multiprocessing fs files kws n2) k)) ∧
    (∀ k, (↑(dictLookup (run_threading fs files kws 1) k) : Multiset String)
        = ↑(dictLookup (run_multiprocessing fs files kws n2) k)) := by
  have hperm := run_lookup_perm_of_counts fs files kws n1 n2 hn1 hn2 hnd
  have hperm1 := run_lookup_perm_of_counts fs files kws 1 n2 (by decide) hn2 hnd
  have hkeys : ∀ k, k ∈ dictKeys (run_threading fs files kws n1)
      ↔ k ∈ dictKeys (run_threading fs files kws n2) := by
    intro k
    rw [run_threading_keys_iff_lookup fs files kws k n1,
      run_threading_keys_iff_lookup fs files kws k n2]
    exact perm_ne_nil (hperm k)
  exact ⟨hkeys, fun k => Multiset.coe_eq_coe.mpr (hperm k), hkeys,
    fun k => Multiset.coe_eq_coe.mpr (hperm k),
    fun k => Multiset.coe_eq_coe.mpr (hperm1 k)⟩

theorem C1_witness :
    (∀ k, k ∈ dictKeys (run_threading fs0 files0 kws0 1)
        ↔ k ∈ dictKeys (run_threading fs0 files0 kws0 2)) ∧
    (∀ k, (↑(dictLookup (run_threading fs0 files0 kws0 1) k) : Multiset String)
        = ↑(dictLookup (run_threading fs0 files0 kws0 2) k)) ∧
    (∀ k, k ∈ dictKeys (run_multiprocessing fs0 files0 kws0 1)
        ↔ k ∈ dictKeys (run_multiprocessing fs0 files0 kws0 2)) ∧
    (∀ k, (↑(dictLookup (run_multiprocessing fs0 files0 kws0 1) k) : Multiset String)
        = ↑(dictLookup (run_multiprocessing fs0 files0 kws0 2) k)) ∧
    (∀ k, (↑(dictLookup (run_threading fs0 files0 kws0 1) k) : Multiset String)
        = ↑(dictLookup (run_multiprocessing fs0 files0 kws0 2) k)) :=
  C1_worker_count_irrelevant fs0 files0 kws0 1 2 (by decide) (by decide)
    (by decide) (by decide)

theorem count_pairs_eq_countP (a : String × String) (l : List (String × String)) :
    List.countP (fun x => decide (a = x)) l = List.count a l := by
  induction l with
  | nil => rfl
  | cons x xs ih =>
    rw [List.countP_cons, List.count_cons, ih]
    congr 1
    by_cases h : x = a
    · subst h; simp
    · have h2 : ¬a = x := fun e => h e.symm
      simp [h, h2]

theorem multiset_count_pairs (a : String × String) (l : List (String × String)) :
    Multiset.count a (↑l : Multiset (String × String)) = List.count a l := by
  rw [Multiset.count, Multiset.coe_countP]
  exact count_pairs_eq_countP a l

/-- C4: over distinct readable files, the multiset of (keyword, file)
pairs listed by the final result equals the multiset of true matches: a
file whose content contains a keyword is counted exactly once under that
keyword, and no other pair occurs. -/
theorem C4_pairs_equal_true_matches (fs : FS) (files kws : List String)
    (n : Nat) (hn : 1 ≤ n) (hnd : kws.Nodup) (hfd : files.Nodup)
    (hread : ∀ f ∈ files, (fs f).isSome) :
    (↑(dictPairs (run_threading fs files kws n)) : Multiset (String × String))
      = ↑(truePairs fs files kws) ∧
    (∀ kw ∈ kws, ∀ f ∈ files,
        List.count (kw, f) (dictPairs (run_threading fs files kws n))
          = if matchesB fs kw f then 1 else 0) ∧
    (∀ kw ∈ kws, ∀ f ∈ files,
        (∃ c, fs f = some c ∧ occursB kw c = true) →
        List.count (kw, f) (dictPairs (run_threading fs files kws n)) = 1) := by
  have hcount : ∀ kw f, List.count (kw, f) (dictPairs (run_threading fs files kws n))
      = List.count f (dictLookup (run_threading fs files kws n) kw) :=
    fun kw f => dictPairs_count _ kw f (merge_results_keys_nodup _)
  have hmain : ∀ kw ∈ kws, ∀ f ∈ files,
      List.count (kw, f) (dictPairs (run_threading fs files kws n))
        = if matchesB fs kw f then 1 else 0 := by
    intro kw hkw f hf
    rw [hcount kw f,
      (run_threading_lookup_mem fs files kws kw n hnd hkw hn).count_eq f]
    by_cases hm : matchesB fs kw f
    · rw [if_pos hm, List.count_filter hm]
      exact List.count_eq_one_of_mem hfd hf
    · rw [if_neg hm, List.count_eq_zero]
      intro hmem
      exact hm (List.mem_filter.mp hmem).2
  refine ⟨?_, hmain, ?_⟩
  · apply Multiset.ext.mpr
    intro a
    obtain ⟨k, f⟩ := a
    rw [multiset_count_pairs, multiset_count_pairs, hcount k f,
      truePairs_count fs files kws k f hnd]
    by_cases hk : k ∈ kws
    · rw [if_pos hk]
      exact (run_threading_lookup_mem fs files kws k n hnd hk hn).count_eq f
    · rw [if_neg hk, run_threading_lookup_not_mem fs files kws k n hk]
      rfl
  · intro kw hkw f hf hocc
    rcases hocc with ⟨c, hc, ho⟩
    have hm : matchesB fs kw f = true := by
      unfold matchesB
      rw [hc]
      exact ho
    rw [hmain kw hkw f hf, if_pos hm]

theorem C4_witness :
    (↑(dictPairs (run_threading fs0 files0 kws0 2)) : Multiset (String × String))
      = ↑(truePairs fs0 files0 kws0) ∧
    (∀ kw ∈ kws0, ∀ f ∈ files0,
        List.count (kw, f) (dictPairs (run_threading fs0 files0 kws0 2))
          = if matchesB fs0 kw f then 1 else 0) ∧
    (∀ kw ∈ kws0, ∀ f ∈ files0,
        (∃ c, fs0 f = some c ∧ occursB kw c = true) →
        List.count (kw, f) (dictPairs (run_threading fs0 files0 kws0 2)) = 1) :=
  C4_pairs_equal_true_matches fs0 files0 kws0 2 (by decide) (by decide)
    (by decide) (by decide)

/-- C9: in the process strategy each spawned worker puts exactly one
partial result on the queue (one element of `spawnedResults` per spawned
worker) and the coordinator drains exactly one message per spawned worker;
whatever order the messages arrive in (any permutation of the spawned
partials), every result is collected exactly once and the merged final
result has the same per-keyword content as the spawn-order run — nothing
is lost or duplicated. -/
theorem C9_one_message_per_worker (fs : FS) (files kws : List String) (n : Nat)
    (arrival : List Dict)
    (h : List.Perm arrival (spawnedResults fs files kws n)) :
    (spawnedResults fs files kws n).length
      = ((chunkify files n).filter (fun c => !c.isEmpty)).length ∧
    arrival.length = ((chunkify files n).filter (fun c => !c.isEmpty)).length ∧
    (∀ k, (↑(dictLookup (merge_results arrival) k) : Multiset String)
        = ↑(dictLookup (run_multiprocessing fs files kws n) k)) ∧
    (∀ k, k ∈ dictKeys (merge_results arrival)
        ↔ k ∈ dictKeys (run_multiprocessing fs files kws n)) := by
  have hlen1 : (spawnedResults fs files kws n).length
      = ((chunkify files n).filter (fun c => !c.isEmpty)).length := by
    unfold spawnedResults
    rw [List.length_map]
  have hnodA : ∀ d ∈ arrival, (dictKeys d).Nodup := fun d hd =>
    spawnedResults_keys_nodup fs files kws n d (h.subset hd)
  have hvalsA : ∀ d ∈ arrival, ∀ p ∈ d, p.2 ≠ [] := fun d hd =>
    spawnedResults_vals_ne_nil fs files kws n d (h.subset hd)
  have hlk : ∀ k, List.Perm (dictLookup (merge_results arrival) k)
      (dictLookup (run_multiprocessing fs files kws n) k) := by
    intro k
    rw [merge_results_lookup arrival k hnodA,
      show run_multiprocessing fs files kws n
        = merge_results (spawnedResults fs files kws n) from rfl,
      merge_results_lookup _ k (spawnedResults_keys_nodup fs files kws n)]
    exact (h.map (fun d => dictLookup d k)).flatten
  refine ⟨hlen1, h.length_eq.trans hlen1,
    fun k => Multiset.coe_eq_coe.mpr (hlk k), ?_⟩
  intro k
  have h1 := mem_dictKeys_iff_lookup (merge_results arrival) k
    (merge_results_vals_ne_nil arrival hvalsA)
  have h2 := mem_dictKeys_iff_lookup (run_multiprocessing fs files kws n) k
    (merge_results_vals_ne_nil (spawnedResults fs files kws n)
      (spawnedResults_vals_ne_nil fs files kws n))
  rw [h1, h2]
  exact perm_ne_nil (hlk k)

theorem C9_witness :
    (spawnedResults fs0 files0 kws0 2).length
      = ((chunkify files0 2).filter (fun c => !c.isEmpty)).length ∧
    ([[("banana", ["f2.txt"])],
      [("apple", ["f1.txt", "f3.txt"]), ("banana", ["f3.txt"])]] : List Dict).length
      = ((chunkify files0 2).filter (fun c => !c.isEmpty)).length ∧
    (∀ k, (↑(dictLookup (merge_results [[("banana", ["f2.txt"])],
        [("apple", ["f1.txt", "f3.txt"]), ("banana", ["f3.txt"])]]) k) : Multiset String)
        = ↑(dictLookup (run_multiprocessing fs0 files0 kws0 2) k)) ∧
    (∀ k, k ∈ dictKeys (merge_results [[("banana", ["f2.txt"])],
        [("apple", ["f1.txt", "f3.txt"]), ("banana", ["f3.txt"])]])
        ↔ k ∈ dictKeys (run_multiprocessing fs0 files0 kws0 2)) :=
  C9_one_message_per_worker fs0 files0 kws0 2
    [[("banana", ["f2.txt"])],
      [("apple", ["f1.txt", "f3.txt"]), ("banana", ["f3.txt"])]]
    (by decide)

/-- C7: in the concrete scenario (`f1.txt` = "apple pie", `f2.txt` =
"banana split", `f3.txt` = "apple banana", keywords apple/banana/kiwi),
every worker count from 1 to 3 and either strategy yields, modulo
per-keyword list order, apple ↦ {f1.txt, f3.txt}, banana ↦ {f2.txt,
f3.txt}, and for the unmatched keyword kiwi the empty list (realized as
no entry in the mapping) rather than an error. -/
theorem C7_three_file_scenario :
    (List.Perm (dictLookup (run_threading fs0 files0 kws0 1) "apple")
      ["f1.txt", "f3.txt"] ∧
     List.Perm (dictLookup (run_threading fs0 files0 kws0 1) "banana")
      ["f2.txt", "f3.txt"] ∧
     dictLookup (run_threading fs0 files0 kws0 1) "kiwi" = [] ∧
     "kiwi" ∉ dictKeys (run_threading fs0 files0 kws0 1)) ∧
    (List.Perm (dictLookup (run_threading fs0 files0 kws0 2) "apple")
      ["f1.txt", "f3.txt"] ∧
     List.Perm (dictLookup (run_threading fs0 files0 kws0 2) "banana")
      ["f2.txt", "f3.txt"] ∧
     dictLookup (run_threading fs0 files0 kws0 2) "kiwi" = [] ∧
     "kiwi" ∉ dictKeys (run_threading fs0 files0 kws0 2)) ∧
    (List.Perm (dictLookup (run_threading fs0 files0 kws0 3) "apple")
      ["f1.txt", "f3.txt"] ∧
     List.Perm (dictLookup (run_threading fs0 files0 kws0 3) "banana")
      ["f2.txt", "f3.txt"] ∧
     dictLookup (run_threading fs0 files0 kws0 3) "kiwi" = [] ∧
     "kiwi" ∉ dictKeys (run_threading fs0 files0 kws0 3)) ∧
    (List.Perm (dictLookup (run_multiprocessing fs0 files0 kws0 1) "apple")
      ["f1.txt", "f3.txt"] ∧
     List.Perm (dictLookup (run_multiprocessing fs0 files0 kws0 1) "banana")
      ["f2.txt", "f3.txt"] ∧
     dictLookup (run_multiprocessing fs0 files0 kws0 1) "kiwi" = [] ∧
     "kiwi" ∉ dictKeys (run_multiprocessing fs0 files0 kws0 1)) ∧
    (List.Perm (dictLookup (run_multiprocessing fs0 files0 kws0 2) "apple")
      ["f1.txt", "f3.txt"] ∧
     List.Perm (dictLookup (run_multiprocessing fs0 files0 kws0 2) "banana")
      ["f2.txt", "f3.txt"] ∧
     dictLookup (run_multiprocessing fs0 files0 kws0 2) "kiwi" = [] ∧
     "kiwi" ∉ dictKeys (run_multiprocessing fs0 files0 kws0 2)) ∧
    (List.Perm (dictLookup (run_multiprocessing fs0 files0 kws0 3) "apple")
      ["f1.txt", "f3.txt"] ∧
     List.Perm (dictLookup (run_multiprocessing fs0 files0 kws0 3) "banana")
      ["f2.txt", "f3.txt"] ∧
     dictLookup (run_multiprocessing fs0 files0 kws0 3) "kiwi" = [] ∧
     "kiwi" ∉ dictKeys (run_multiprocessing fs0 files0 kws0 3)) := by
  decide
